import Mathlib

/-!
# Verification of the sqlexp semantic analyzer

Shallow embedding of the repository's core (src/sql.py, src/scope.py,
src/memo.py) and proofs of the specified properties.

Modelling conventions:
- Python `set` values holding memo indices become `Finset Nat`.
- The memo's class array becomes `List cls`; `memo.newcls` appends and
  returns the new index (`length - 1`).
- A class's property dictionary becomes the record `Props` whose fields are
  all `Option`-valued: `none` models an absent key (and also the literal
  `None` value that `get_datasource` temporarily stores under `neededcols`
  for a fresh variable class; Python's attribute access returns `None` in
  both situations, so the two are observationally identical to the code).
- Python exceptions become `Except Err`; every `throw` site gets its own
  `Err` constructor, and the runtime type errors the code would raise when
  a `None` property is used as a set or list are modelled by `Err.typeError`
  (raised by `req` below, exactly where Python would crash).
- The recursive analyzers mutate one memo and one scope chain in place; here
  they thread the memo (and, where Python mutates the current scope table,
  the scope) explicitly.  A `fuel` argument makes the deep mutual recursion
  structurally terminating; `Err.outOfFuel` is an artifact of the embedding
  and never occurs in any theorem's successful run.
- The in-place property mutations of the source (`memo[varidx].props.neededcols
  = Set([varidx])` and `difference_update`) become `setNeededcols`.
-/

instance {ε α : Type} [DecidableEq ε] [DecidableEq α] : DecidableEq (Except ε α) := fun a b =>
  match a, b with
  | .ok x, .ok y => if h : x = y then .isTrue (by rw [h]) else .isFalse (by simp [h])
  | .error x, .error y => if h : x = y then .isTrue (by rw [h]) else .isFalse (by simp [h])
  | .ok _, .error _ => .isFalse (by simp)
  | .error _, .ok _ => .isFalse (by simp)

/-- The derived decidable equality on `Option` can get stuck during kernel
reduction when the element type is `Finset`; this direct instance reduces. -/
instance {α : Type} [DecidableEq α] : DecidableEq (Option α) := fun a b =>
  match a, b with
  | none, none => .isTrue rfl
  | some x, some y => if h : x = y then .isTrue (by rw [h]) else .isFalse (by simp [h])
  | none, some _ => .isFalse (by simp)
  | some _, none => .isFalse (by simp)

/-! ## Errors (src/sql.py `throw` sites and the Python runtime errors) -/

inductive Err where
  /-- Models `throw("unknown column: %s" % exp)` in `analyze_scalar`. -/
  | unknownColumn (name : String)
  /-- Models `throw("unknown table: %s" % tn)` in `get_datasource`. -/
  | unknownTable (name : String)
  /-- Models `throw("unknown scalar expression: %s" % exp)` in `analyze_scalar`. -/
  | unknownScalar
  /-- Models `throw("unknown from clause: %r" % exp)` in `get_datasource`. -/
  | unknownFrom
  /-- Python `IndexError` on `memo[idx]` with `idx` out of range. -/
  | indexOutOfRange
  /-- Python `TypeError`/`AttributeError` when a `None` property value is
  used as a set or list (e.g. `None.difference`, `zip(None, ...)`). -/
  | typeError
  /-- Artifact of the fuel-based embedding; not a Python behaviour. -/
  | outOfFuel
deriving DecidableEq

/-! ## Memo (src/memo.py) -/

/-- One operand of an m-expression: either a memo index or a literal
(`Exp('var', ["kv.k"])` carries a string, `Exp('lit', [3])` an integer). -/
inductive MOperand where
  | idx (i : Nat)
  | str (s : String)
  | int (n : Int)
deriving DecidableEq

/-- An m-expression `Exp(op, args)` as stored in a memo class.
`Exp('unary')` (Python `args = None`) is modelled with an empty operand
list; nothing in the analyzer or the claims distinguishes the two. -/
structure MExpr where
  op : String
  args : List MOperand
deriving DecidableEq

/-- The property dictionary of a memo class (`sqlio.Props`).  Scalar classes
only ever carry `neededcols`; relational classes carry all four keys. -/
structure Props where
  neededcols : Option (Finset Nat) := none
  cols : Option (List Nat) := none
  outs : Option (Finset Nat) := none
  labels : Option (List String) := none

/-- Decidable equality for `Props` written without transport between field
comparisons, so that it reduces in the kernel even when two equal `Finset`
values have different representations. -/
instance : DecidableEq Props := fun p q =>
  decidable_of_iff
    (p.neededcols = q.neededcols ∧ p.cols = q.cols ∧ p.outs = q.outs ∧
      p.labels = q.labels)
    (by cases p; cases q; simp [Props.mk.injEq, and_assoc])

/-- Models `memo.cls`: one m-expression list (always a singleton here) plus
properties. -/
structure cls where
  mexprs : List MExpr
  props : Props

instance : DecidableEq cls := fun c d =>
  decidable_of_iff (c.mexprs = d.mexprs ∧ c.props = d.props)
    (by cases c; cases d; simp [cls.mk.injEq])

/-- The class array of a `memo` object. -/
abbrev Memo := List cls

/-- Models `memo.newcls`: append a class built from one m-expression and a property
map, returning the new index. -/
def newcls (m : Memo) (mexpr : MExpr) (props : Props) : Memo × Nat :=
  (m ++ [{ mexprs := [mexpr], props := props }], m.length)

/-- Models `memo.__getitem__`: fetch by index, Python `IndexError` if absent. -/
def memoGet (m : Memo) (i : Nat) : Except Err cls :=
  match m[i]? with
  | some c => .ok c
  | none => .error .indexOutOfRange

/-- Use a property value that must not be `None`: where Python would raise a
`TypeError`/`AttributeError`, we fail with `Err.typeError`. -/
def req {α : Type} (o : Option α) : Except Err α :=
  match o with
  | some a => .ok a
  | none => .error .typeError

/-- In-place mutation `memo[i].props.neededcols = s` (used for the
scan-variable self-reference fix-up and for `difference_update` in the
subquery-in-FROM case).  Out-of-range `i` never occurs at the call sites. -/
def setNeededcols (m : Memo) (i : Nat) (s : Finset Nat) : Memo :=
  match m[i]? with
  | some c => m.set i { c with props := { c.props with neededcols := some s } }
  | none => m

/-- Models `add_scalar_exp` (src/sql.py): the `assert 'neededcols' in props` always
holds at the call sites (the variable-class call site passes the literal
`None` value, which still satisfies the key-presence assert). -/
def add_scalar_exp (m : Memo) (mexpr : MExpr) (props : Props) : Memo × Nat :=
  newcls m mexpr props

/-- Models `add_rel_exp` (src/sql.py): the four key-presence asserts always hold at
the call sites. -/
def add_rel_exp (m : Memo) (mexpr : MExpr) (props : Props) : Memo × Nat :=
  newcls m mexpr props

/-- The full `memo` object: a root index plus the class array
(src/memo.py `memo.__init__`). -/
structure memo where
  root : Option Nat
  classes : Memo

instance : DecidableEq memo := fun a b =>
  decidable_of_iff (a.root = b.root ∧ a.classes = b.classes)
    (by cases a; cases b; simp [memo.mk.injEq])

/-! ## Scope (src/scope.py)

A scope chain is a nonempty list of tables, current table first; `[]` plays
the role of `parent is None`.  A table is the insertion-ordered dictionary
`alias -> (column-name -> index)`; CPython dictionaries preserve insertion
order and update in place, which the association-list operations below
reproduce exactly. -/

abbrev Table := List (String × List (String × Nat))

abbrev Scope := List Table

/-- Inner-dictionary read: `d.get(colname, None)`. -/
def colsGet (d : List (String × Nat)) (colname : String) : Option Nat :=
  (d.find? (fun p => p.1 == colname)).map (fun p => p.2)

/-- Outer-dictionary read: `self.scope[tn]` when present. -/
def tableFind (t : Table) (tn : String) : Option (List (String × Nat)) :=
  (t.find? (fun p => p.1 == tn)).map (fun p => p.2)

/-- Models `d[colname] = idx` on an insertion-ordered dictionary. -/
def colsPut (d : List (String × Nat)) (colname : String) (idx : Nat) :
    List (String × Nat) :=
  if d.any (fun p => p.1 == colname) then
    d.map (fun p => if p.1 == colname then (colname, idx) else p)
  else d ++ [(colname, idx)]

/-- Models `scope.bind` acting on one table: `d = self.scope.get(tn, {});
d[colname] = idx; self.scope[tn] = d`. -/
def tablePut (t : Table) (tn colname : String) (idx : Nat) : Table :=
  if t.any (fun p => p.1 == tn) then
    t.map (fun p => if p.1 == tn then (p.1, colsPut p.2 colname idx) else p)
  else t ++ [(tn, [(colname, idx)])]

/-- Models `scope.bind`: inserts/overwrites in the current (head) table. -/
def bindScope (sc : Scope) (tn colname : String) (idx : Nat) : Scope :=
  match sc with
  | [] => []
  | t :: parent => tablePut t tn colname idx :: parent

/-- Models `for cols in self.scope.values(): if colname in cols: return cols[colname]`
— the bare-name scan over all aliases of one table, in insertion order. -/
def scanAliases : Table → String → Option Nat
  | [], _ => none
  | (_, d) :: rest, colname =>
    match colsGet d colname with
    | some i => some i
    | none => scanAliases rest colname

/-- Models `scope._lookup`.  Mirrors the source exactly: when the alias `tn` is a
key of the current table, the result is that alias's entry for `colname`
(possibly `None`) and the parent is never consulted; the anonymous scan and
the parent delegation happen only in the remaining cases. -/
def scopeLookup : Scope → String → String → Option Nat
  | [], _, _ => none
  | t :: parent, tn, colname =>
    match tableFind t tn with
    | some d => colsGet d colname
    | none =>
      if tn = "" then
        match scanAliases t colname with
        | some i => some i
        | none => scopeLookup parent tn colname
      else
        scopeLookup parent tn colname

/-- Python `name.split('.', 1)` preceded by the `'.' in name` test: returns
the (alias, rest) pair at the first dot, or `none` for a bare name. -/
def splitQualified (name : String) : Option (String × String) :=
  let l := name.toList
  match l.dropWhile (fun c => c ≠ '.') with
  | '.' :: rest => some (⟨l.takeWhile (fun c => c ≠ '.')⟩, ⟨rest⟩)
  | _ => none

/-- Models `scope.lookup` (module-level function in src/scope.py). -/
def lookup (sc : Scope) (name : String) : Option Nat :=
  match splitQualified name with
  | some (tn, colname) => scopeLookup sc tn colname
  | none => scopeLookup sc "" name

/-! ## The input expression tree (sqlio shapes consumed by the analyzer) -/

mutual

/-- A scalar expression: symbol, integer literal, `(exists <select>)`,
a `select` used in scalar position, or a generic operator application. -/
inductive Scalar where
  | sym (name : String)
  | lit (n : Int)
  | existsQ (sub : SelectQ)
  | subselect (sub : SelectQ)
  | app (op : String) (args : List Scalar)

/-- One projection target: a bare expression (label computed by `tocolname`)
or a one-entry property group `(:label expr)`. -/
inductive ProjItem where
  | bare (e : Scalar)
  | labeled (label : String) (e : Scalar)

/-- The `:exprs` clause: a single target (the syntactic sugar
`(select :exprs 123)`) or a bracketed list. -/
inductive ExprsClause where
  | one (p : ProjItem)
  | many (ps : List ProjItem)

/-- One FROM source: a table-name symbol or a nested select. -/
inductive FromSource where
  | table (name : String)
  | sub (q : SelectQ)

/-- The `:from` clause: a single source or a bracketed list (cross join). -/
inductive FromClause where
  | one (s : FromSource)
  | many (ss : List FromSource)

/-- A `select` operator application with its recognized property labels. -/
inductive SelectQ where
  | mk (fromCl : Option FromClause) (whereCl : Option Scalar)
      (exprsCl : Option ExprsClause)

end

/-! ## `tocolname` (src/sql.py): default projection labels

`tocolname` is `sexpdata.dumps`.  For the shapes the analyzer labels by
default the rendering is `symbol -> its name`, `integer -> decimal text`,
`(op a b) -> "(op a b)"`.  A `select` inside a target renders its property
list in the original input key order, which the typed tree does not retain;
the fixed order used below (exprs, from, where, matching the repository's
doc examples) is the one divergence, and no analyzed property depends on
such a label. -/

mutual

def dumpScalar : Scalar → String
  | .sym s => s
  | .lit n => toString n
  | .existsQ sub => "(exists " ++ dumpSelect sub ++ ")"
  | .subselect sub => dumpSelect sub
  | .app oper args => "(" ++ String.intercalate " " (oper :: dumpScalarList args) ++ ")"

def dumpScalarList : List Scalar → List String
  | [] => []
  | e :: es => dumpScalar e :: dumpScalarList es

def dumpProjItem : ProjItem → String
  | .bare e => dumpScalar e
  | .labeled k e => "(:" ++ k ++ " " ++ dumpScalar e ++ ")"

def dumpProjList : List ProjItem → List String
  | [] => []
  | p :: ps => dumpProjItem p :: dumpProjList ps

def dumpFromSource : FromSource → String
  | .table n => n
  | .sub q => dumpSelect q

def dumpFromList : List FromSource → List String
  | [] => []
  | s :: ss => dumpFromSource s :: dumpFromList ss

def dumpSelect : SelectQ → String
  | .mk f w e =>
    "(select"
      ++ (match e with
          | none => ""
          | some (.one p) => " :exprs " ++ dumpProjItem p
          | some (.many ps) => " :exprs (" ++ String.intercalate " " (dumpProjList ps) ++ ")")
      ++ (match f with
          | none => ""
          | some (.one s) => " :from " ++ dumpFromSource s
          | some (.many ss) => " :from (" ++ String.intercalate " " (dumpFromList ss) ++ ")")
      ++ (match w with
          | none => ""
          | some ws => " :where " ++ dumpScalar ws)
      ++ ")"

end

/-- Models `tocolname` (src/sql.py). -/
def tocolname (e : Scalar) : String := dumpScalar e

/-! ## The catalog (src/sql.py `tables`) -/

/-- The static table catalog used for schema resolution in FROM clauses. -/
def tables : List (String × List String) :=
  [("kv", ["k", "v"]), ("ab", ["a", "b"])]

/-- Models `tn in tables` / `tables[tn]` on the catalog dictionary. -/
def tablesGet (tn : String) : Option (List String) :=
  (tables.find? (fun p => p.1 == tn)).map (fun p => p.2)

/-! ## Non-recursive analyzer helpers -/

/-- The per-column loop of the scan branch of `get_datasource`: for each
catalog column, create a `(var "tn.col")` scalar class with a `None`
needed-columns value, bind `tn.col` in the current scope, and immediately
overwrite the class's `neededcols` with the singleton of its own index.
Returns the updated memo and scope plus the variable indices and labels in
catalog order. -/
def scanVars : Memo → Scope → String → List String →
    Memo × Scope × List Nat × List String
  | m, env, _, [] => (m, env, [], [])
  | m, env, tn, colname :: rest =>
    let mv := add_scalar_exp m ⟨"var", [.str (tn ++ "." ++ colname)]⟩ { neededcols := none }
    let env1 := bindScope env tn colname mv.2
    let m1 := setNeededcols mv.1 mv.2 {mv.2}
    let r := scanVars m1 env1 tn rest
    (r.1, r.2.1, mv.2 :: r.2.2.1, colname :: r.2.2.2)

/-- The re-export loop of the subquery-in-FROM branch: `env.bind('', l, idx)`
for each (label, column) pair in order. -/
def bindAll (env : Scope) (ps : List (String × Nat)) : Scope :=
  ps.foldl (fun e p => bindScope e "" p.1 p.2) env

/-- The bottom-up union `for i in idxs: neededcols.update(memo[i].props.neededcols)`
of `analyze_scalar`'s operator case (a `None` operand set is a Python
`TypeError`). -/
def union_needed (m : Memo) : List Nat → Except Err (Finset Nat)
  | [] => .ok ∅
  | i :: rest => do
    let c ← memoGet m i
    let n ← req c.props.neededcols
    let ns ← union_needed m rest
    pure (n ∪ ns)

/-- The list-normalization sugar for the `:exprs` clause:
`if not isinstance(exprs, list): exprs = [exprs]`. -/
def projItems : ExprsClause → List ProjItem
  | .one p => [p]
  | .many ps => ps

/-- The label/expression normalization loop of `analyze_select`'s projection
stage: an explicit `(:lbl expr)` keeps its label, a bare expression gets
`tocolname`. -/
def normalizeProj : List ProjItem → List String × List Scalar
  | [] => ([], [])
  | p :: rest =>
    let (ls, es) := normalizeProj rest
    match p with
    | .bare e => (tocolname e :: ls, e :: es)
    | .labeled k e => (k :: ls, e :: es)

/-! ## The mutually recursive analyzers (src/sql.py)

All functions take the memo first and thread it through; `analyze_from` /
`get_datasource` additionally thread the scope because they bind names into
the caller's current table.  The WHERE and projection stages of
`analyze_select` are written as named functions to make the plan-shape
rules individually addressable; their bodies are the corresponding inline
blocks of `analyze_select` verbatim. -/

mutual

/-- Models `analyze_scalar` (src/sql.py lines 78-147). -/
def analyze_scalar : Nat → Memo → Scope → Scalar → Except Err (Memo × Nat)
  | 0, _, _, _ => .error .outOfFuel
  | fuel+1, m, env, e =>
    match e with
    | .sym name =>
      match lookup env name with
      | none => .error (.unknownColumn name)
      | some idx => .ok (m, idx)
    | .lit n =>
      .ok (add_scalar_exp m ⟨"lit", [.int n]⟩ { neededcols := some ∅ })
    | .existsQ sub => do
      let (m, idx) ← analyze_select fuel m env sub
      let c ← memoGet m idx
      pure (add_scalar_exp m ⟨"exists", [.idx idx]⟩ { neededcols := c.props.neededcols })
    | .subselect sub => do
      let (m, idx) ← analyze_select fuel m env sub
      let c ← memoGet m idx
      pure (add_scalar_exp m ⟨"apply", [.idx idx]⟩ { neededcols := c.props.neededcols })
    | .app oper args => do
      let (m, idxs) ← analyze_scalar_list fuel m env args
      let needed ← union_needed m idxs
      pure (add_scalar_exp m ⟨oper, idxs.map .idx⟩ { neededcols := some needed })

/-- The operand recursion `[analyze_scalar(memo, env, e) for e in exp.args]`. -/
def analyze_scalar_list : Nat → Memo → Scope → List Scalar →
    Except Err (Memo × List Nat)
  | 0, _, _, _ => .error .outOfFuel
  | _+1, m, _, [] => .ok (m, [])
  | fuel+1, m, env, e :: rest => do
    let (m, i) ← analyze_scalar fuel m env e
    let (m, is) ← analyze_scalar_list fuel m env rest
    pure (m, i :: is)

/-- Models `analyze_select` (src/sql.py lines 178-305). -/
def analyze_select : Nat → Memo → Scope → SelectQ → Except Err (Memo × Nat)
  | 0, _, _, _ => .error .outOfFuel
  | fuel+1, m, env, .mk fromCl whereCl exprsCl => do
    let here : Scope := ([] : Table) :: env
    let (m, here, srcidx) ←
      match fromCl with
      | some f => analyze_from fuel m here f
      | none =>
        let (m, i) := add_rel_exp m ⟨"unary", []⟩
          { cols := some [], outs := some ∅, labels := some [], neededcols := some ∅ }
        pure (m, here, i)
    let (m, srcidx) ← analyze_where fuel m here srcidx whereCl
    let (m, srcidx) ← analyze_proj fuel m here srcidx exprsCl
    pure (m, srcidx)

/-- The WHERE stage of `analyze_select` (src/sql.py lines 212-227). -/
def analyze_where : Nat → Memo → Scope → Nat → Option Scalar →
    Except Err (Memo × Nat)
  | 0, _, _, _, _ => .error .outOfFuel
  | _+1, m, _, srcidx, none => .ok (m, srcidx)
  | fuel+1, m, here, srcidx, some w => do
    let (m, fidx) ← analyze_scalar fuel m here w
    let src ← memoGet m srcidx
    let fc ← memoGet m fidx
    let fneed ← req fc.props.neededcols
    let scols ← req src.props.cols
    pure (add_rel_exp m ⟨"filter", [.idx srcidx, .idx fidx]⟩
      { cols := src.props.cols, outs := src.props.outs, labels := src.props.labels,
        neededcols := some (fneed \ scols.toFinset) })

/-- The projection stage of `analyze_select` (src/sql.py lines 231-298),
including the elision and relabel-in-place optimizations. -/
def analyze_proj : Nat → Memo → Scope → Nat → Option ExprsClause →
    Except Err (Memo × Nat)
  | 0, _, _, _, _ => .error .outOfFuel
  | _+1, m, _, srcidx, none => .ok (m, srcidx)
  | fuel+1, m, here, srcidx, some ecl => do
    let (labels, eexprs) := normalizeProj (projItems ecl)
    let (m, idxs) ← analyze_scalar_list fuel m here eexprs
    let outs : Finset Nat := idxs.toFinset
    let src ← memoGet m srcidx
    if some idxs = src.props.cols ∧ some labels = src.props.labels then
      pure (m, srcidx)
    else if some outs = src.props.outs then do
      let mex0 ← req src.mexprs.head?
      pure (add_rel_exp m mex0
        { cols := some idxs, outs := some outs, labels := some labels,
          neededcols := src.props.neededcols })
    else do
      let sneed ← req src.props.neededcols
      pure (add_rel_exp m ⟨"project", [.idx srcidx]⟩
        { cols := some idxs, outs := some outs, labels := some labels,
          neededcols := some (sneed \ outs) })

/-- Models `analyze_from` (src/sql.py lines 317-342). -/
def analyze_from : Nat → Memo → Scope → FromClause →
    Except Err (Memo × Scope × Nat)
  | 0, _, _, _ => .error .outOfFuel
  | fuel+1, m, env, .one s => get_datasource fuel m env s
  | fuel+1, m, env, .many ss => do
    let (m, env, idxs, lbls, cols, outs) ← from_list fuel m env ss
    let (m, i) := add_rel_exp m ⟨"cross", idxs.map .idx⟩
      { cols := some cols, outs := some outs, labels := some lbls, neededcols := some ∅ }
    pure (m, env, i)

/-- The accumulation loop of `analyze_from`'s cross-join case: per source,
resolve it, then extend the label/column accumulators and union the outs. -/
def from_list : Nat → Memo → Scope → List FromSource →
    Except Err (Memo × Scope × List Nat × List String × List Nat × Finset Nat)
  | 0, _, _, _ => .error .outOfFuel
  | _+1, m, env, [] => .ok (m, env, [], [], [], ∅)
  | fuel+1, m, env, e :: rest => do
    let (m, env, idx) ← get_datasource fuel m env e
    let c ← memoGet m idx
    let ls ← req c.props.labels
    let cs ← req c.props.cols
    let os ← req c.props.outs
    let (m, env, idxs, lbls, cols, outs) ← from_list fuel m env rest
    pure (m, env, idx :: idxs, ls ++ lbls, cs ++ cols, os ∪ outs)

/-- Models `get_datasource` (src/sql.py lines 344-397). -/
def get_datasource : Nat → Memo → Scope → FromSource →
    Except Err (Memo × Scope × Nat)
  | 0, _, _, _ => .error .outOfFuel
  | _+1, m, env, .table tn =>
    match tablesGet tn with
    | none => .error (.unknownTable tn)
    | some t =>
      let (m, env, vars, lbls) := scanVars m env tn t
      let (m, i) := add_rel_exp m ⟨"scan", [.str tn]⟩
        { cols := some vars, outs := some vars.toFinset, labels := some lbls,
          neededcols := some ∅ }
      .ok (m, env, i)
  | fuel+1, m, env, .sub q => do
    let (m, srcidx) ← analyze_select fuel m env q
    let c ← memoGet m srcidx
    let lbls ← req c.props.labels
    let cs ← req c.props.cols
    let env := bindAll env (lbls.zip cs)
    let os ← req c.props.outs
    let needed ← req c.props.neededcols
    let m := setNeededcols m srcidx (needed \ os)
    pure (m, env, srcidx)

end

/-- Models `handle_sql` without the printing: compile one select expression into a
memo whose root is the analysis result, starting from an empty memo and the
empty top-level scope `scope(None)`. -/
def compileQuery (fuel : Nat) (q : SelectQ) : Except Err memo :=
  (analyze_select fuel ([] : Memo) [([] : Table)] q).map
    (fun p => { root := some p.2, classes := p.1 })

/-! ## The spec's scenario queries -/

/-- Scenario A: `(select :exprs (+ k v) :from kv)` — SELECT k+v FROM kv. -/
def qA : SelectQ :=
  .mk (some (.one (.table "kv"))) none
    (some (.one (.bare (.app "+" [.sym "k", .sym "v"]))))

/-- Scenario B: `(select :exprs [k v] :from kv)` — SELECT k, v FROM kv. -/
def qB : SelectQ :=
  .mk (some (.one (.table "kv"))) none
    (some (.many [.bare (.sym "k"), .bare (.sym "v")]))

/-- Scenario C: `(select :exprs [v k] :from kv)` — SELECT v, k FROM kv. -/
def qC : SelectQ :=
  .mk (some (.one (.table "kv"))) none
    (some (.many [.bare (.sym "v"), .bare (.sym "k")]))

/-! ## Scenario A (claim C1) -/

/-- The memo Scenario A must produce. -/
def memoA : memo :=
  { root := some 4,
    classes :=
      [ ⟨[⟨"var", [.str "kv.k"]⟩], { neededcols := some {0} }⟩,
        ⟨[⟨"var", [.str "kv.v"]⟩], { neededcols := some {1} }⟩,
        ⟨[⟨"scan", [.str "kv"]⟩],
          { neededcols := some ∅, cols := some [0, 1], outs := some {0, 1},
            labels := some ["k", "v"] }⟩,
        ⟨[⟨"+", [.idx 0, .idx 1]⟩], { neededcols := some {0, 1} }⟩,
        ⟨[⟨"project", [.idx 2]⟩],
          { neededcols := some ∅, cols := some [3], outs := some {3},
            labels := some ["(+ k v)"] }⟩ ] }

/-- C1: analyzing SELECT k+v FROM kv from an empty memo produces exactly the
five classes of Scenario A, in that order, and returns root index 4. -/
theorem scenarioA_memo :
    compileQuery 10 qA = .ok memoA ∧
    memoA.classes.length = 5 ∧ memoA.root = some 4 := by
  exact ⟨by decide, by decide, rfl⟩

/-! ## Inversion helpers for the Except monad -/

theorem ok_bind {α β : Type} {a : α} {f : α → Except Err β} :
    (Except.ok a : Except Err α) >>= f = f a := rfl

theorem bind_ok {α β : Type} {x : Except Err α} {f : α → Except Err β} {b : β} :
    x >>= f = .ok b ↔ ∃ a, x = .ok a ∧ f a = .ok b := by
  cases x <;> simp [Bind.bind, Except.bind]

theorem pure_ok {α : Type} {a b : α} : (pure a : Except Err α) = .ok b ↔ a = b := by
  simp [pure, Except.pure]

theorem req_ok {α : Type} {o : Option α} {a : α} : req o = .ok a ↔ o = some a := by
  cases o <;> simp [req]

theorem memoGet_ok {m : Memo} {i : Nat} {c : cls} :
    memoGet m i = .ok c ↔ m[i]? = some c := by
  unfold memoGet
  cases m[i]? <;> simp

/-! ## Claim C3: the elision law and Scenario B -/

/-- The memo Scenario B must produce: just the two variables and the scan,
with no projection class. -/
def memoB : memo :=
  { root := some 2,
    classes :=
      [ ⟨[⟨"var", [.str "kv.k"]⟩], { neededcols := some {0} }⟩,
        ⟨[⟨"var", [.str "kv.v"]⟩], { neededcols := some {1} }⟩,
        ⟨[⟨"scan", [.str "kv"]⟩],
          { neededcols := some ∅, cols := some [0, 1], outs := some {0, 1},
            labels := some ["k", "v"] }⟩ ] }

/-- C3: (elision law) if the projection targets analyze to exactly the
source's column list, in order, and the normalized labels equal the source's
labels, the projection stage appends nothing and returns the source index;
and (Scenario B) SELECT k, v FROM kv returns the scan index 2 as root with
no project class created. -/
theorem projection_elision :
    (∀ (fuel : Nat) (m : Memo) (here : Scope) (srcidx : Nat) (ecl : ExprsClause)
       (labels : List String) (eexprs : List Scalar) (m₂ : Memo) (idxs : List Nat)
       (src : cls),
       normalizeProj (projItems ecl) = (labels, eexprs) →
       analyze_scalar_list fuel m here eexprs = .ok (m₂, idxs) →
       m₂[srcidx]? = some src →
       some idxs = src.props.cols →
       some labels = src.props.labels →
       analyze_proj (fuel+1) m here srcidx (some ecl) = .ok (m₂, srcidx)) ∧
    compileQuery 10 qB = .ok memoB := by
  constructor
  · intro fuel m here srcidx ecl labels eexprs m₂ idxs src hnorm hlist hsrc hcols hlabels
    simp only [analyze_proj, hnorm, hlist, ok_bind, memoGet, hsrc]
    rw [if_pos ⟨hcols, hlabels⟩]
    rfl
  · decide

/-- Witness for `projection_elision`: its elision law applied at Scenario B's
projection stage (memo = vars plus scan, source index 2, targets k and v). -/
theorem projection_elision_witness :
    analyze_proj 9 memoB.classes
      [[("kv", [("k", 0), ("v", 1)])], [], []] 2
      (some (.many [.bare (.sym "k"), .bare (.sym "v")])) = .ok (memoB.classes, 2) :=
  projection_elision.1 8 memoB.classes
    [[("kv", [("k", 0), ("v", 1)])], [], []] 2
    (.many [.bare (.sym "k"), .bare (.sym "v")])
    ["k", "v"] [.sym "k", .sym "v"] memoB.classes [0, 1]
    ⟨[⟨"scan", [.str "kv"]⟩],
      { neededcols := some ∅, cols := some [0, 1], outs := some {0, 1},
        labels := some ["k", "v"] }⟩
    (by rfl) (by rfl) (by rfl) (by rfl) (by rfl)

/-! ## Claim C4: the relabel-in-place law and Scenario C -/

/-- The scan class of the kv table as it appears in every scenario memo. -/
def scanKv : cls :=
  ⟨[⟨"scan", [.str "kv"]⟩],
    { neededcols := some ∅, cols := some [0, 1], outs := some {0, 1},
      labels := some ["k", "v"] }⟩

/-- The memo Scenario C must produce: the scan memo plus one class sharing
the scan's representation with the reordered columns and labels. -/
def memoC : memo :=
  { root := some 3,
    classes :=
      [ ⟨[⟨"var", [.str "kv.k"]⟩], { neededcols := some {0} }⟩,
        ⟨[⟨"var", [.str "kv.v"]⟩], { neededcols := some {1} }⟩,
        scanKv,
        ⟨[⟨"scan", [.str "kv"]⟩],
          { neededcols := some ∅, cols := some [1, 0], outs := some {0, 1},
            labels := some ["v", "k"] }⟩ ] }

/-- C4: (relabel law) if the projection targets analyze to a column set equal
to the source's outs but the elision test fails, exactly one class is
appended, sharing the source's structural representation, with the new
column list, its set as outs, the new labels, and the source's needed
columns unchanged; and (Scenario C) SELECT v, k FROM kv yields such a class
as root while the scan (index 2) stays in the memo and is not the root. -/
theorem projection_relabel :
    (∀ (fuel : Nat) (m : Memo) (here : Scope) (srcidx : Nat) (ecl : ExprsClause)
       (labels : List String) (eexprs : List Scalar) (m₂ : Memo) (idxs : List Nat)
       (src : cls) (mex0 : MExpr) (mrest : List MExpr),
       normalizeProj (projItems ecl) = (labels, eexprs) →
       analyze_scalar_list fuel m here eexprs = .ok (m₂, idxs) →
       m₂[srcidx]? = some src →
       src.mexprs = mex0 :: mrest →
       ¬(some idxs = src.props.cols ∧ some labels = src.props.labels) →
       some idxs.toFinset = src.props.outs →
       analyze_proj (fuel+1) m here srcidx (some ecl) =
         .ok (m₂ ++ [⟨[mex0],
            { neededcols := src.props.neededcols, cols := some idxs,
              outs := some idxs.toFinset, labels := some labels }⟩],
          m₂.length)) ∧
    compileQuery 10 qC = .ok memoC ∧
    memoC.classes[2]? = some scanKv ∧
    memoC.classes[3]? = some ⟨scanKv.mexprs,
      { neededcols := some ∅, cols := some [1, 0], outs := some {0, 1},
        labels := some ["v", "k"] }⟩ ∧
    memoC.root = some 3 ∧ memoC.root ≠ some 2 := by
  refine ⟨?_, by decide, by decide, by decide, rfl, by decide⟩
  intro fuel m here srcidx ecl labels eexprs m₂ idxs src mex0 mrest
    hnorm hlist hsrc hmex hne houts
  simp only [analyze_proj, hnorm, hlist, ok_bind, memoGet, hsrc]
  rw [if_neg hne, if_pos houts]
  simp only [hmex, List.head?, req, ok_bind]
  rfl

/-- Witness for `projection_relabel`: its relabel law applied at Scenario C's
projection stage (memo = vars plus scan, source index 2, targets v and k). -/
theorem projection_relabel_witness :
    analyze_proj 9 memoB.classes
      [[("kv", [("k", 0), ("v", 1)])], [], []] 2
      (some (.many [.bare (.sym "v"), .bare (.sym "k")])) =
      .ok (memoB.classes ++ [⟨[⟨"scan", [.str "kv"]⟩],
        { neededcols := some ∅, cols := some [1, 0], outs := some ([1, 0] : List Nat).toFinset,
          labels := some ["v", "k"] }⟩], 3) :=
  projection_relabel.1 8 memoB.classes
    [[("kv", [("k", 0), ("v", 1)])], [], []] 2
    (.many [.bare (.sym "v"), .bare (.sym "k")])
    ["v", "k"] [.sym "v", .sym "k"] memoB.classes [1, 0]
    scanKv ⟨"scan", [.str "kv"]⟩ []
    (by rfl) (by rfl) (by rfl) (by rfl) (by decide) (by decide)


/-! ## Memo preservation

Every analyzer call only appends classes and mutates classes it created
itself (at indices at or above its entry length), so the classes that
existed on entry are unchanged on exit.  `Pres m m'` captures this. -/

def Pres (m m' : Memo) : Prop :=
  m.length ≤ m'.length ∧ ∀ i, i < m.length → m'[i]? = m[i]?

theorem Pres.refl (m : Memo) : Pres m m := ⟨le_rfl, fun _ _ => rfl⟩

theorem Pres.trans {a b c : Memo} (h₁ : Pres a b) (h₂ : Pres b c) : Pres a c :=
  ⟨h₁.1.trans h₂.1, fun i hi => (h₂.2 i (lt_of_lt_of_le hi h₁.1)).trans (h₁.2 i hi)⟩

theorem Pres_append (m : Memo) (l : List cls) : Pres m (m ++ l) :=
  ⟨by simp, fun i hi => List.getElem?_append_left hi⟩

theorem getElem?_some_lt {m : Memo} {i : Nat} {c : cls} (h : m[i]? = some c) :
    i < m.length := by
  by_contra hc
  rw [List.getElem?_eq_none (by omega)] at h
  exact Option.noConfusion h

theorem setNeededcols_length (m : Memo) (j : Nat) (s : Finset Nat) :
    (setNeededcols m j s).length = m.length := by
  unfold setNeededcols
  cases m[j]? <;> simp

theorem setNeededcols_get_ne {m : Memo} {i j : Nat} (hij : i ≠ j) (s : Finset Nat) :
    (setNeededcols m j s)[i]? = m[i]? := by
  unfold setNeededcols
  cases m[j]? with
  | none => rfl
  | some c => exact List.getElem?_set_ne (fun h => hij h.symm)

theorem Pres_setNeededcols {m m₁ : Memo} {j : Nat} (h : Pres m m₁)
    (hj : m.length ≤ j) (s : Finset Nat) : Pres m (setNeededcols m₁ j s) :=
  ⟨by rw [setNeededcols_length]; exact h.1,
   fun i hi => by
     rw [setNeededcols_get_ne (by omega) s]
     exact h.2 i hi⟩

theorem scanVars_pres (tn : String) : ∀ (colnames : List String) (m : Memo) (env : Scope),
    Pres m (scanVars m env tn colnames).1 := by
  intro colnames
  induction colnames with
  | nil => intro m env; exact Pres.refl m
  | cons c rest ih =>
    intro m env
    simp only [scanVars]
    refine Pres.trans ?_ (ih _ _)
    exact Pres_setNeededcols (Pres_append m _) (by simp [add_scalar_exp, newcls]) _

theorem pure_bind_ex {α β : Type} {a : α} {f : α → Except Err β} :
    (pure a : Except Err α) >>= f = f a := rfl

/-- Master preservation statement for all eight analyzer functions, proved
by simultaneous induction on the fuel. -/
theorem presMaster : ∀ fuel : Nat,
    (∀ m env e m' i, analyze_scalar fuel m env e = .ok (m', i) →
      Pres m m') ∧
    (∀ m env es m' is, analyze_scalar_list fuel m env es = .ok (m', is) →
      Pres m m' ∧ is.length = es.length) ∧
    (∀ m env q m' i, analyze_select fuel m env q = .ok (m', i) →
      Pres m m' ∧ m.length ≤ i ∧ i < m'.length) ∧
    (∀ m here srcidx w m' i, analyze_where fuel m here srcidx w = .ok (m', i) →
      Pres m m' ∧ srcidx ≤ i ∧ (srcidx < m.length → i < m'.length)) ∧
    (∀ m here srcidx ec m' i, analyze_proj fuel m here srcidx ec = .ok (m', i) →
      Pres m m' ∧ srcidx ≤ i ∧ (srcidx < m.length → i < m'.length)) ∧
    (∀ m env f m' env' i, analyze_from fuel m env f = .ok (m', env', i) →
      Pres m m' ∧ m.length ≤ i ∧ i < m'.length) ∧
    (∀ m env ss m' env' idxs lbls cols outs,
       from_list fuel m env ss = .ok (m', env', idxs, lbls, cols, outs) →
      Pres m m' ∧ ∀ j ∈ idxs, j < m'.length) ∧
    (∀ m env s m' env' i, get_datasource fuel m env s = .ok (m', env', i) →
      Pres m m' ∧ m.length ≤ i ∧ i < m'.length) := by
  intro fuel
  induction fuel with
  | zero =>
    refine ⟨?_, ?_, ?_, ?_, ?_, ?_, ?_, ?_⟩ <;>
      (intros m a b c d h
       revert h
       simp_all [analyze_scalar, analyze_scalar_list, analyze_select,
         analyze_where, analyze_proj, analyze_from, from_list, get_datasource])
  | succ fuel ih =>
    obtain ⟨ihScalar, ihList, ihSelect, ihWhere, ihProj, ihFrom, ihFL, ihDS⟩ := ih
    refine ⟨?_, ?_, ?_, ?_, ?_, ?_, ?_, ?_⟩
    · -- analyze_scalar
      intro m env e m' i h
      cases e with
      | sym name =>
        simp only [analyze_scalar] at h
        cases hl : lookup env name with
        | none => rw [hl] at h; exact absurd h (by simp)
        | some idx =>
          rw [hl] at h
          simp only [Except.ok.injEq, Prod.mk.injEq] at h
          obtain ⟨rfl, rfl⟩ := h
          exact Pres.refl m
      | lit n =>
        simp only [analyze_scalar, add_scalar_exp, newcls, Except.ok.injEq,
          Prod.mk.injEq] at h
        obtain ⟨rfl, rfl⟩ := h
        exact Pres_append m _
      | existsQ sub =>
        simp only [analyze_scalar, bind_ok, pure_ok] at h
        obtain ⟨⟨m₁, idx⟩, h₁, h⟩ := h
        obtain ⟨c, hc, h⟩ := h
        dsimp only at h
        simp only [add_scalar_exp, newcls, Prod.mk.injEq] at h
        obtain ⟨rfl, rfl⟩ := h
        exact Pres.trans (ihSelect _ _ _ _ _ h₁).1 (Pres_append m₁ _)
      | subselect sub =>
        simp only [analyze_scalar, bind_ok, pure_ok] at h
        obtain ⟨⟨m₁, idx⟩, h₁, h⟩ := h
        obtain ⟨c, hc, h⟩ := h
        dsimp only at h
        simp only [add_scalar_exp, newcls, Prod.mk.injEq] at h
        obtain ⟨rfl, rfl⟩ := h
        exact Pres.trans (ihSelect _ _ _ _ _ h₁).1 (Pres_append m₁ _)
      | app oper args =>
        simp only [analyze_scalar, bind_ok, pure_ok] at h
        obtain ⟨⟨m₁, idxs⟩, h₁, h⟩ := h
        obtain ⟨needed, hn, h⟩ := h
        dsimp only at h
        simp only [add_scalar_exp, newcls, Prod.mk.injEq] at h
        obtain ⟨rfl, rfl⟩ := h
        exact Pres.trans (ihList _ _ _ _ _ h₁).1 (Pres_append m₁ _)
    · -- analyze_scalar_list
      intro m env es m' is h
      cases es with
      | nil =>
        simp only [analyze_scalar_list, Except.ok.injEq, Prod.mk.injEq] at h
        obtain ⟨rfl, rfl⟩ := h
        exact ⟨Pres.refl m, rfl⟩
      | cons e rest =>
        simp only [analyze_scalar_list, bind_ok, pure_ok] at h
        obtain ⟨⟨m₁, j⟩, h₁, h⟩ := h
        obtain ⟨⟨m₂, jrest⟩, h₂, h⟩ := h
        dsimp only at h
        simp only [Prod.mk.injEq] at h
        obtain ⟨rfl, rfl⟩ := h
        obtain ⟨hp₂, hlen⟩ := ihList _ _ _ _ _ h₂
        exact ⟨Pres.trans (ihScalar _ _ _ _ _ h₁) hp₂, by simp [hlen]⟩
    · -- analyze_select
      intro m env q m' i h
      obtain ⟨fromCl, whereCl, exprsCl⟩ := q
      have step :
          ∀ m₁ here₁ s₁, Pres m m₁ → m.length ≤ s₁ → s₁ < m₁.length →
          (∃ a, analyze_where fuel m₁ here₁ s₁ whereCl = .ok a ∧
            ∃ b, analyze_proj fuel a.1 here₁ a.2 exprsCl = .ok b ∧
              (pure (b.1, b.2) : Except Err (Memo × Nat)) = .ok (m', i)) →
          Pres m m' ∧ m.length ≤ i ∧ i < m'.length := by
        intro m₁ here₁ s₁ hp₁ hl₁ hu₁ h
        simp only [pure_ok] at h
        obtain ⟨⟨m₂, s₂⟩, h₂, h⟩ := h
        obtain ⟨⟨m₃, s₃⟩, h₃, h⟩ := h
        dsimp only at h
        simp only [Prod.mk.injEq] at h
        obtain ⟨rfl, rfl⟩ := h
        obtain ⟨hp₂, hs₂l, hs₂u⟩ := ihWhere _ _ _ _ _ _ h₂
        obtain ⟨hp₃, hs₃l, hs₃u⟩ := ihProj _ _ _ _ _ _ h₃
        have hu₂ := hs₂u hu₁
        have hu₃ := hs₃u hu₂
        exact ⟨Pres.trans hp₁ (Pres.trans hp₂ hp₃), by omega, hu₃⟩
      cases fromCl with
      | none =>
        simp only [analyze_select, pure_bind_ex, bind_ok] at h
        exact step _ _ _ (Pres_append m _) (by simp [add_rel_exp, newcls])
          (by simp [add_rel_exp, newcls]) h
      | some f =>
        simp only [analyze_select, bind_ok] at h
        obtain ⟨⟨m₁, here₁, s₁⟩, h₁, h⟩ := h
        obtain ⟨hp₁, hl₁, hu₁⟩ := ihFrom _ _ _ _ _ _ h₁
        exact step _ _ _ hp₁ hl₁ hu₁ h
    · -- analyze_where
      intro m here srcidx w m' i h
      cases w with
      | none =>
        simp only [analyze_where, Except.ok.injEq, Prod.mk.injEq] at h
        obtain ⟨rfl, rfl⟩ := h
        exact ⟨Pres.refl m, le_rfl, fun h => h⟩
      | some wexp =>
        simp only [analyze_where, bind_ok, pure_ok] at h
        obtain ⟨⟨m₁, fidx⟩, h₁, h⟩ := h
        obtain ⟨src, hsrc, h⟩ := h
        obtain ⟨fc, hfc, h⟩ := h
        obtain ⟨fneed, hfneed, h⟩ := h
        obtain ⟨scols, hscols, h⟩ := h
        dsimp only at h
        simp only [add_rel_exp, newcls, Prod.mk.injEq] at h
        obtain ⟨rfl, rfl⟩ := h
        rw [memoGet_ok] at hsrc
        have hsb : srcidx < m₁.length := getElem?_some_lt hsrc
        refine ⟨Pres.trans (ihScalar _ _ _ _ _ h₁) (Pres_append m₁ _),
          by omega, fun _ => by simp⟩
    · -- analyze_proj
      intro m here srcidx ec m' i h
      cases ec with
      | none =>
        simp only [analyze_proj, Except.ok.injEq, Prod.mk.injEq] at h
        obtain ⟨rfl, rfl⟩ := h
        exact ⟨Pres.refl m, le_rfl, fun h => h⟩
      | some ecl =>
        simp only [analyze_proj] at h
        rcases hnp : normalizeProj (projItems ecl) with ⟨labels, eexprs⟩
        rw [hnp] at h
        dsimp only at h
        simp only [bind_ok, pure_ok] at h
        obtain ⟨⟨m₁, idxs⟩, h₁, h⟩ := h
        obtain ⟨src, hsrc, h⟩ := h
        dsimp only at h
        rw [memoGet_ok] at hsrc
        have hsb : srcidx < m₁.length := getElem?_some_lt hsrc
        have hpl := (ihList _ _ _ _ _ h₁).1
        split at h
        · simp only [pure_ok, Prod.mk.injEq] at h
          obtain ⟨rfl, rfl⟩ := h
          exact ⟨hpl, le_rfl, fun _ => hsb⟩
        · split at h
          · simp only [bind_ok, pure_ok] at h
            obtain ⟨mex0, hmex, h⟩ := h
            simp only [add_rel_exp, newcls, Prod.mk.injEq] at h
            obtain ⟨rfl, rfl⟩ := h
            exact ⟨Pres.trans hpl (Pres_append m₁ _), by omega, fun _ => by simp⟩
          · simp only [bind_ok, pure_ok] at h
            obtain ⟨sneed, hsneed, h⟩ := h
            simp only [add_rel_exp, newcls, Prod.mk.injEq] at h
            obtain ⟨rfl, rfl⟩ := h
            exact ⟨Pres.trans hpl (Pres_append m₁ _), by omega, fun _ => by simp⟩
    · -- analyze_from
      intro m env f m' env' i h
      cases f with
      | one s =>
        simp only [analyze_from] at h
        exact ihDS _ _ _ _ _ _ h
      | many ss =>
        simp only [analyze_from, bind_ok, pure_ok] at h
        obtain ⟨⟨m₁, env₁, idxs, lbls, cols, outs⟩, h₁, h⟩ := h
        dsimp only at h
        simp only [add_rel_exp, newcls, Prod.mk.injEq] at h
        obtain ⟨rfl, rfl, rfl⟩ := h
        obtain ⟨hp₁, _⟩ := ihFL _ _ _ _ _ _ _ _ _ h₁
        exact ⟨Pres.trans hp₁ (Pres_append m₁ _), le_trans hp₁.1 (by simp), by simp⟩
    · -- from_list
      intro m env ss m' env' idxs lbls cols outs h
      cases ss with
      | nil =>
        simp only [from_list, Except.ok.injEq, Prod.mk.injEq] at h
        obtain ⟨rfl, rfl, rfl, rfl, rfl, rfl⟩ := h
        exact ⟨Pres.refl m, by simp⟩
      | cons e rest =>
        simp only [from_list, bind_ok, pure_ok] at h
        obtain ⟨⟨m₁, env₁, idx⟩, h₁, h⟩ := h
        obtain ⟨c, hc, h⟩ := h
        obtain ⟨ls, hls, h⟩ := h
        obtain ⟨cs, hcs, h⟩ := h
        obtain ⟨os, hos, h⟩ := h
        obtain ⟨⟨m₂, env₂, idxs₂, lbls₂, cols₂, outs₂⟩, h₂, h⟩ := h
        dsimp only at h
        simp only [Prod.mk.injEq] at h
        obtain ⟨rfl, rfl, rfl, rfl, rfl, rfl⟩ := h
        rw [memoGet_ok] at hc
        have hib : idx < m₁.length := getElem?_some_lt hc
        obtain ⟨hp₂, hb₂⟩ := ihFL _ _ _ _ _ _ _ _ _ h₂
        refine ⟨Pres.trans (ihDS _ _ _ _ _ _ h₁).1 hp₂, ?_⟩
        intro j hj
        rcases List.mem_cons.mp hj with rfl | hj
        · exact lt_of_lt_of_le hib hp₂.1
        · exact hb₂ j hj
    · -- get_datasource
      intro m env s m' env' i h
      cases s with
      | table tn =>
        simp only [get_datasource] at h
        cases ht : tablesGet tn with
        | none => rw [ht] at h; exact absurd h (by simp)
        | some t =>
          rw [ht] at h
          dsimp only at h
          simp only [add_rel_exp, newcls, Except.ok.injEq, Prod.mk.injEq] at h
          obtain ⟨rfl, rfl, rfl⟩ := h
          have hsv := scanVars_pres tn t m env
          refine ⟨Pres.trans hsv (Pres_append _ _), le_trans hsv.1 (by simp), by simp⟩
      | sub q =>
        simp only [get_datasource, bind_ok, pure_ok] at h
        obtain ⟨⟨m₁, srcidx⟩, h₁, h⟩ := h
        obtain ⟨c, hc, h⟩ := h
        obtain ⟨lbls, hlbls, h⟩ := h
        obtain ⟨cs, hcs, h⟩ := h
        obtain ⟨os, hos, h⟩ := h
        obtain ⟨needed, hneeded, h⟩ := h
        dsimp only at h
        simp only [Prod.mk.injEq] at h
        obtain ⟨rfl, rfl, rfl⟩ := h
        obtain ⟨hp₁, hl₁, hu₁⟩ := ihSelect _ _ _ _ _ h₁
        refine ⟨Pres_setNeededcols hp₁ hl₁ _, hl₁, ?_⟩
        rw [setNeededcols_length]
        exact hu₁

/-! ## The memo invariant

`goodCls i c` collects, for the class `c` stored at index `i`:
- every memo-index operand of its representations is smaller than `i`
  (the DAG property);
- `outs` equals the set of `cols` whenever both properties are present;
- `cols` and `labels` have the same length whenever both are present;
- `neededcols` is disjoint from `outs` whenever both are present.
Scalar classes carry no `cols`/`outs`/`labels`, so the last three
conditions are vacuous for them. -/

def goodCls (i : Nat) (c : cls) : Prop :=
  (∀ mex ∈ c.mexprs, ∀ j, MOperand.idx j ∈ mex.args → j < i) ∧
  (∀ cols o, c.props.cols = some cols → c.props.outs = some o → o = cols.toFinset) ∧
  (∀ cols ls, c.props.cols = some cols → c.props.labels = some ls →
    cols.length = ls.length) ∧
  (∀ n o, c.props.neededcols = some n → c.props.outs = some o → n ∩ o = ∅)

def MemoInv (m : Memo) : Prop := ∀ i c, m[i]? = some c → goodCls i c

theorem MemoInv_nil : MemoInv ([] : Memo) := by
  intro i c h
  simp at h

theorem MemoInv_append {m : Memo} {c : cls} (h : MemoInv m) (hc : goodCls m.length c) :
    MemoInv (m ++ [c]) := by
  intro i d hd
  rcases lt_trichotomy i m.length with hi | rfl | hi
  · rw [List.getElem?_append_left hi] at hd
    exact h i d hd
  · rw [List.getElem?_concat_length] at hd
    cases hd
    exact hc
  · rw [List.getElem?_eq_none (by simp; omega)] at hd
    exact Option.noConfusion hd

/-- Reading back the mutated class. -/
theorem setNeededcols_get_self {m : Memo} {j : Nat} {c : cls} (hc : m[j]? = some c)
    (s : Finset Nat) :
    (setNeededcols m j s)[j]? =
      some { c with props := { c.props with neededcols := some s } } := by
  unfold setNeededcols
  rw [hc]
  rw [List.getElem?_set_self']
  rw [hc]
  rfl

/-- Overwriting a class's `neededcols` with a value disjoint from its `outs`
preserves the invariant. -/
theorem MemoInv_setNeededcols {m : Memo} {j : Nat} {s : Finset Nat} (h : MemoInv m)
    (hs : ∀ c o, m[j]? = some c → c.props.outs = some o → s ∩ o = ∅) :
    MemoInv (setNeededcols m j s) := by
  intro i d hd
  by_cases hij : i = j
  · subst hij
    cases hc : m[i]? with
    | none =>
      unfold setNeededcols at hd
      rw [hc] at hd
      exact h i d hd
    | some c =>
      rw [setNeededcols_get_self hc] at hd
      cases hd
      obtain ⟨g1, g2, g3, g4⟩ := h i c hc
      refine ⟨g1, g2, g3, ?_⟩
      intro n o hn ho
      simp only [Option.some.injEq] at hn
      subst hn
      exact hs c o hc ho
  · rw [setNeededcols_get_ne hij] at hd
    exact h i d hd

theorem head?_mem {α : Type} {l : List α} {a : α} (h : l.head? = some a) : a ∈ l := by
  cases l with
  | nil => simp at h
  | cons b bs => simp at h; simp [h]

theorem union_needed_bound {m : Memo} :
    ∀ {idxs : List Nat} {s : Finset Nat}, union_needed m idxs = .ok s →
      ∀ j ∈ idxs, j < m.length := by
  intro idxs
  induction idxs with
  | nil => intro s _ j hj; simp at hj
  | cons i rest ih =>
    intro s h j hj
    simp only [union_needed, bind_ok, pure_ok] at h
    obtain ⟨c, hc, h⟩ := h
    obtain ⟨n, hn, h⟩ := h
    obtain ⟨ns, hns, h⟩ := h
    rw [memoGet_ok] at hc
    rcases List.mem_cons.mp hj with rfl | hj
    · exact getElem?_some_lt hc
    · exact ih hns j hj

theorem normalizeProj_length :
    ∀ ps : List ProjItem, (normalizeProj ps).1.length = (normalizeProj ps).2.length := by
  intro ps
  induction ps with
  | nil => rfl
  | cons p rest ih =>
    cases p <;> simp only [normalizeProj] <;> simp [ih]

theorem goodCls_scalar {i : Nat} {mex : MExpr} {nc : Option (Finset Nat)}
    (hop : ∀ j, MOperand.idx j ∈ mex.args → j < i) :
    goodCls i ⟨[mex], { neededcols := nc }⟩ := by
  refine ⟨?_, ?_, ?_, ?_⟩
  · intro mex' hm j hj
    rw [List.mem_singleton] at hm
    subst hm
    exact hop j hj
  · intro cols o hc _
    exact absurd hc (by simp)
  · intro cols ls hc _
    exact absurd hc (by simp)
  · intro n o _ ho
    exact absurd ho (by simp)

theorem scanVars_spec (tn : String) :
    ∀ (colnames : List String) (m : Memo) (env : Scope), MemoInv m →
      MemoInv (scanVars m env tn colnames).1 ∧
      (scanVars m env tn colnames).2.2.1.length =
        (scanVars m env tn colnames).2.2.2.length ∧
      (∀ v ∈ (scanVars m env tn colnames).2.2.1,
        v < (scanVars m env tn colnames).1.length) := by
  intro colnames
  induction colnames with
  | nil =>
    intro m env hInv
    exact ⟨hInv, rfl, by simp [scanVars]⟩
  | cons c rest ih =>
    intro m env hInv
    have hInv1 : MemoInv (setNeededcols
        (m ++ [⟨[⟨"var", [.str (tn ++ "." ++ c)]⟩], { neededcols := none }⟩])
        m.length {m.length}) := by
      refine MemoInv_setNeededcols (MemoInv_append hInv ?_) ?_
      · exact goodCls_scalar (by intro j hj; simp at hj)
      · intro c' o hc' ho
        rw [List.getElem?_concat_length] at hc'
        cases hc'
        exact absurd ho (by simp)
    obtain ⟨ih1, ih2, ih3⟩ := ih _ (bindScope env tn c m.length) hInv1
    simp only [scanVars, add_scalar_exp, newcls]
    refine ⟨ih1, by simpa using ih2, ?_⟩
    intro v hv
    rcases List.mem_cons.mp hv with rfl | hv
    · have h1 : m.length < (setNeededcols
          (m ++ [⟨[⟨"var", [.str (tn ++ "." ++ c)]⟩], { neededcols := none }⟩])
          m.length {m.length}).length := by
        rw [setNeededcols_length]
        simp
      exact lt_of_lt_of_le h1 (scanVars_pres tn rest _ _).1
    · exact ih3 v hv

/-- Master invariant statement: each analyzer preserves `MemoInv`, and the
cross-join accumulation additionally relates its accumulated outs, cols and
labels.  Proved by simultaneous induction on the fuel. -/
theorem invMaster : ∀ fuel : Nat,
    (∀ m env e m' i, analyze_scalar fuel m env e = .ok (m', i) → MemoInv m →
      MemoInv m') ∧
    (∀ m env es m' is, analyze_scalar_list fuel m env es = .ok (m', is) → MemoInv m →
      MemoInv m') ∧
    (∀ m env q m' i, analyze_select fuel m env q = .ok (m', i) → MemoInv m →
      MemoInv m') ∧
    (∀ m here srcidx w m' i, analyze_where fuel m here srcidx w = .ok (m', i) →
      MemoInv m → MemoInv m') ∧
    (∀ m here srcidx ec m' i, analyze_proj fuel m here srcidx ec = .ok (m', i) →
      MemoInv m → MemoInv m') ∧
    (∀ m env f m' env' i, analyze_from fuel m env f = .ok (m', env', i) → MemoInv m →
      MemoInv m') ∧
    (∀ m env ss m' env' idxs lbls cols outs,
       from_list fuel m env ss = .ok (m', env', idxs, lbls, cols, outs) → MemoInv m →
      MemoInv m' ∧ outs = cols.toFinset ∧ cols.length = lbls.length) ∧
    (∀ m env s m' env' i, get_datasource fuel m env s = .ok (m', env', i) → MemoInv m →
      MemoInv m') := by
  intro fuel
  induction fuel with
  | zero =>
    refine ⟨?_, ?_, ?_, ?_, ?_, ?_, ?_, ?_⟩ <;>
      (intros m a b c d h
       revert h
       simp_all [analyze_scalar, analyze_scalar_list, analyze_select,
         analyze_where, analyze_proj, analyze_from, from_list, get_datasource])
  | succ fuel ih =>
    obtain ⟨ihScalar, ihList, ihSelect, ihWhere, ihProj, ihFrom, ihFL, ihDS⟩ := ih
    refine ⟨?_, ?_, ?_, ?_, ?_, ?_, ?_, ?_⟩
    · -- analyze_scalar
      intro m env e m' i h hInv
      cases e with
      | sym name =>
        simp only [analyze_scalar] at h
        cases hl : lookup env name with
        | none => rw [hl] at h; exact absurd h (by simp)
        | some idx =>
          rw [hl] at h
          simp only [Except.ok.injEq, Prod.mk.injEq] at h
          obtain ⟨rfl, rfl⟩ := h
          exact hInv
      | lit n =>
        simp only [analyze_scalar, add_scalar_exp, newcls, Except.ok.injEq,
          Prod.mk.injEq] at h
        obtain ⟨rfl, rfl⟩ := h
        exact MemoInv_append hInv (goodCls_scalar (by intro j hj; simp at hj))
      | existsQ sub =>
        simp only [analyze_scalar, bind_ok, pure_ok] at h
        obtain ⟨⟨m₁, idx⟩, h₁, h⟩ := h
        obtain ⟨c, hc, h⟩ := h
        dsimp only at h
        simp only [add_scalar_exp, newcls, Prod.mk.injEq] at h
        obtain ⟨rfl, rfl⟩ := h
        rw [memoGet_ok] at hc
        refine MemoInv_append (ihSelect _ _ _ _ _ h₁ hInv) (goodCls_scalar ?_)
        intro j hj
        simp only [List.mem_singleton, MOperand.idx.injEq] at hj
        subst hj
        exact getElem?_some_lt hc
      | subselect sub =>
        simp only [analyze_scalar, bind_ok, pure_ok] at h
        obtain ⟨⟨m₁, idx⟩, h₁, h⟩ := h
        obtain ⟨c, hc, h⟩ := h
        dsimp only at h
        simp only [add_scalar_exp, newcls, Prod.mk.injEq] at h
        obtain ⟨rfl, rfl⟩ := h
        rw [memoGet_ok] at hc
        refine MemoInv_append (ihSelect _ _ _ _ _ h₁ hInv) (goodCls_scalar ?_)
        intro j hj
        simp only [List.mem_singleton, MOperand.idx.injEq] at hj
        subst hj
        exact getElem?_some_lt hc
      | app oper args =>
        simp only [analyze_scalar, bind_ok, pure_ok] at h
        obtain ⟨⟨m₁, idxs⟩, h₁, h⟩ := h
        obtain ⟨needed, hn, h⟩ := h
        dsimp only at h
        simp only [add_scalar_exp, newcls, Prod.mk.injEq] at h
        obtain ⟨rfl, rfl⟩ := h
        refine MemoInv_append (ihList _ _ _ _ _ h₁ hInv) (goodCls_scalar ?_)
        intro j hj
        simp only [List.mem_map, MOperand.idx.injEq] at hj
        obtain ⟨j', hj', rfl⟩ := hj
        exact union_needed_bound hn j' hj'
    · -- analyze_scalar_list
      intro m env es m' is h hInv
      cases es with
      | nil =>
        simp only [analyze_scalar_list, Except.ok.injEq, Prod.mk.injEq] at h
        obtain ⟨rfl, rfl⟩ := h
        exact hInv
      | cons e rest =>
        simp only [analyze_scalar_list, bind_ok, pure_ok] at h
        obtain ⟨⟨m₁, j⟩, h₁, h⟩ := h
        obtain ⟨⟨m₂, jrest⟩, h₂, h⟩ := h
        dsimp only at h
        simp only [Prod.mk.injEq] at h
        obtain ⟨rfl, rfl⟩ := h
        exact ihList _ _ _ _ _ h₂ (ihScalar _ _ _ _ _ h₁ hInv)
    · -- analyze_select
      intro m env q m' i h hInv
      obtain ⟨fromCl, whereCl, exprsCl⟩ := q
      have step :
          ∀ m₁ here₁ s₁, MemoInv m₁ →
          (∃ a, analyze_where fuel m₁ here₁ s₁ whereCl = .ok a ∧
            ∃ b, analyze_proj fuel a.1 here₁ a.2 exprsCl = .ok b ∧
              (pure (b.1, b.2) : Except Err (Memo × Nat)) = .ok (m', i)) →
          MemoInv m' := by
        intro m₁ here₁ s₁ hInv₁ h
        simp only [pure_ok] at h
        obtain ⟨⟨m₂, s₂⟩, h₂, h⟩ := h
        obtain ⟨⟨m₃, s₃⟩, h₃, h⟩ := h
        dsimp only at h
        simp only [Prod.mk.injEq] at h
        obtain ⟨rfl, rfl⟩ := h
        exact ihProj _ _ _ _ _ _ h₃ (ihWhere _ _ _ _ _ _ h₂ hInv₁)
      cases fromCl with
      | none =>
        simp only [analyze_select, pure_bind_ex, bind_ok] at h
        refine step _ _ _ (MemoInv_append hInv ?_) h
        refine ⟨?_, ?_, ?_, ?_⟩
        · intro mex' hm j hj
          simp only [List.mem_singleton] at hm
          subst hm
          simp at hj
        · intro cols o hc ho
          simp only [Option.some.injEq] at hc ho
          subst hc; subst ho
          simp
        · intro cols ls hc hls
          simp only [Option.some.injEq] at hc hls
          subst hc; subst hls
          rfl
        · intro n o hn ho
          simp only [Option.some.injEq] at hn ho
          subst hn; subst ho
          simp
      | some f =>
        simp only [analyze_select, bind_ok] at h
        obtain ⟨⟨m₁, here₁, s₁⟩, h₁, h⟩ := h
        exact step _ _ _ (ihFrom _ _ _ _ _ _ h₁ hInv) h
    · -- analyze_where
      intro m here srcidx w m' i h hInv
      cases w with
      | none =>
        simp only [analyze_where, Except.ok.injEq, Prod.mk.injEq] at h
        obtain ⟨rfl, rfl⟩ := h
        exact hInv
      | some wexp =>
        simp only [analyze_where, bind_ok, pure_ok] at h
        obtain ⟨⟨m₁, fidx⟩, h₁, h⟩ := h
        obtain ⟨src, hsrc, h⟩ := h
        obtain ⟨fc, hfc, h⟩ := h
        obtain ⟨fneed, hfneed, h⟩ := h
        obtain ⟨scols, hscols, h⟩ := h
        dsimp only at h
        simp only [add_rel_exp, newcls, Prod.mk.injEq] at h
        obtain ⟨rfl, rfl⟩ := h
        rw [memoGet_ok] at hsrc hfc
        rw [req_ok] at hfneed hscols
        have hInv₁ := ihScalar _ _ _ _ _ h₁ hInv
        refine MemoInv_append hInv₁ ⟨?_, ?_, ?_, ?_⟩
        · intro mex' hm j hj
          simp only [List.mem_singleton] at hm
          subst hm
          simp only [List.mem_cons, List.mem_singleton, MOperand.idx.injEq,
            List.not_mem_nil, or_false] at hj
          rcases hj with rfl | rfl
          · exact getElem?_some_lt hsrc
          · exact getElem?_some_lt hfc
        · intro cols o hc ho
          exact (hInv₁ srcidx src hsrc).2.1 cols o hc ho
        · intro cols ls hc hls
          exact (hInv₁ srcidx src hsrc).2.2.1 cols ls hc hls
        · intro n o hn ho
          simp only [Option.some.injEq] at hn
          subst hn
          have : o = scols.toFinset :=
            (hInv₁ srcidx src hsrc).2.1 scols o hscols ho
          subst this
          exact Finset.sdiff_inter_self _ _
    · -- analyze_proj
      intro m here srcidx ec m' i h hInv
      cases ec with
      | none =>
        simp only [analyze_proj, Except.ok.injEq, Prod.mk.injEq] at h
        obtain ⟨rfl, rfl⟩ := h
        exact hInv
      | some ecl =>
        simp only [analyze_proj] at h
        rcases hnp : normalizeProj (projItems ecl) with ⟨labels, eexprs⟩
        rw [hnp] at h
        dsimp only at h
        simp only [bind_ok, pure_ok] at h
        obtain ⟨⟨m₁, idxs⟩, h₁, h⟩ := h
        obtain ⟨src, hsrc, h⟩ := h
        dsimp only at hsrc h
        rw [memoGet_ok] at hsrc
        have hInv₁ := ihList _ _ _ _ _ h₁ hInv
        have hlen : idxs.length = labels.length := by
          have h1 := ((presMaster fuel).2.1) _ _ _ _ _ h₁
          have h2 := normalizeProj_length (projItems ecl)
          rw [hnp] at h2
          simp only at h2
          omega
        split at h
        · simp only [pure_ok, Prod.mk.injEq] at h
          obtain ⟨rfl, rfl⟩ := h
          exact hInv₁
        · rename_i hne
          split at h
          · rename_i houts
            simp only [bind_ok, pure_ok] at h
            obtain ⟨mex0, hmex, h⟩ := h
            simp only [add_rel_exp, newcls, Prod.mk.injEq] at h
            obtain ⟨rfl, rfl⟩ := h
            rw [req_ok] at hmex
            refine MemoInv_append hInv₁ ⟨?_, ?_, ?_, ?_⟩
            · intro mex' hm j hj
              simp only [List.mem_singleton] at hm
              subst hm
              have hjlt := (hInv₁ srcidx src hsrc).1 _ (head?_mem hmex) j hj
              have := getElem?_some_lt hsrc
              omega
            · intro cols o hc ho
              simp only [Option.some.injEq] at hc ho
              subst hc; subst ho
              rfl
            · intro cols ls hc hls
              simp only [Option.some.injEq] at hc hls
              subst hc; subst hls
              exact hlen
            · intro n o hn ho
              simp only [Option.some.injEq] at ho
              subst ho
              exact (hInv₁ srcidx src hsrc).2.2.2 n idxs.toFinset hn houts.symm
          · simp only [bind_ok, pure_ok] at h
            obtain ⟨sneed, hsneed, h⟩ := h
            simp only [add_rel_exp, newcls, Prod.mk.injEq] at h
            obtain ⟨rfl, rfl⟩ := h
            rw [req_ok] at hsneed
            refine MemoInv_append hInv₁ ⟨?_, ?_, ?_, ?_⟩
            · intro mex' hm j hj
              simp only [List.mem_singleton] at hm
              subst hm
              simp only [List.mem_singleton, MOperand.idx.injEq] at hj
              subst hj
              exact getElem?_some_lt hsrc
            · intro cols o hc ho
              simp only [Option.some.injEq] at hc ho
              subst hc; subst ho
              rfl
            · intro cols ls hc hls
              simp only [Option.some.injEq] at hc hls
              subst hc; subst hls
              exact hlen
            · intro n o hn ho
              simp only [Option.some.injEq] at hn ho
              subst hn; subst ho
              exact Finset.sdiff_inter_self _ _
    · -- analyze_from
      intro m env f m' env' i h hInv
      cases f with
      | one s =>
        simp only [analyze_from] at h
        exact ihDS _ _ _ _ _ _ h hInv
      | many ss =>
        simp only [analyze_from, bind_ok, pure_ok] at h
        obtain ⟨⟨m₁, env₁, idxs, lbls, cols, outs⟩, h₁, h⟩ := h
        dsimp only at h
        simp only [add_rel_exp, newcls, Prod.mk.injEq] at h
        obtain ⟨rfl, rfl, rfl⟩ := h
        obtain ⟨hInv₁, houts, hlens⟩ := ihFL _ _ _ _ _ _ _ _ _ h₁ hInv
        have hbnd := ((presMaster fuel).2.2.2.2.2.2.1) _ _ _ _ _ _ _ _ _ h₁
        refine MemoInv_append hInv₁ ⟨?_, ?_, ?_, ?_⟩
        · intro mex' hm j hj
          simp only [List.mem_singleton] at hm
          subst hm
          simp only [List.mem_map, MOperand.idx.injEq] at hj
          obtain ⟨j', hj', rfl⟩ := hj
          exact hbnd.2 j' hj'
        · intro cols' o hc ho
          simp only [Option.some.injEq] at hc ho
          subst hc; subst ho
          exact houts
        · intro cols' ls hc hls
          simp only [Option.some.injEq] at hc hls
          subst hc; subst hls
          exact hlens
        · intro n o hn ho
          simp only [Option.some.injEq] at hn
          subst hn
          simp
    · -- from_list
      intro m env ss m' env' idxs lbls cols outs h hInv
      cases ss with
      | nil =>
        simp only [from_list, Except.ok.injEq, Prod.mk.injEq] at h
        obtain ⟨rfl, rfl, rfl, rfl, rfl, rfl⟩ := h
        exact ⟨hInv, by simp, rfl⟩
      | cons e rest =>
        simp only [from_list, bind_ok, pure_ok] at h
        obtain ⟨⟨m₁, env₁, idx⟩, h₁, h⟩ := h
        obtain ⟨c, hc, h⟩ := h
        obtain ⟨ls, hls, h⟩ := h
        obtain ⟨cs, hcs, h⟩ := h
        obtain ⟨os, hos, h⟩ := h
        obtain ⟨⟨m₂, env₂, idxs₂, lbls₂, cols₂, outs₂⟩, h₂, h⟩ := h
        dsimp only at h
        simp only [Prod.mk.injEq] at h
        obtain ⟨rfl, rfl, rfl, rfl, rfl, rfl⟩ := h
        rw [memoGet_ok] at hc
        rw [req_ok] at hls hcs hos
        have hInv₁ := ihDS _ _ _ _ _ _ h₁ hInv
        obtain ⟨hInv₂, houts₂, hlen₂⟩ := ihFL _ _ _ _ _ _ _ _ _ h₂ hInv₁
        have hco : os = cs.toFinset := (hInv₁ idx c hc).2.1 cs os hcs hos
        have hll : cs.length = ls.length := (hInv₁ idx c hc).2.2.1 cs ls hcs hls
        refine ⟨hInv₂, ?_, ?_⟩
        · rw [List.toFinset_append, hco, houts₂]
        · simp [hll, hlen₂]
    · -- get_datasource
      intro m env s m' env' i h hInv
      cases s with
      | table tn =>
        simp only [get_datasource] at h
        cases ht : tablesGet tn with
        | none => rw [ht] at h; exact absurd h (by simp)
        | some t =>
          rw [ht] at h
          dsimp only at h
          simp only [add_rel_exp, newcls, Except.ok.injEq, Prod.mk.injEq] at h
          obtain ⟨rfl, rfl, rfl⟩ := h
          obtain ⟨hInv₁, hlen₁, hbnd₁⟩ := scanVars_spec tn t m env hInv
          refine MemoInv_append hInv₁ ⟨?_, ?_, ?_, ?_⟩
          · intro mex' hm j hj
            simp only [List.mem_singleton] at hm
            subst hm
            simp at hj
          · intro cols' o hc ho
            simp only [Option.some.injEq] at hc ho
            subst hc; subst ho
            rfl
          · intro cols' ls hc hls
            simp only [Option.some.injEq] at hc hls
            subst hc; subst hls
            exact hlen₁
          · intro n o hn ho
            simp only [Option.some.injEq] at hn
            subst hn
            simp
      | sub q =>
        simp only [get_datasource, bind_ok, pure_ok] at h
        obtain ⟨⟨m₁, srcidx⟩, h₁, h⟩ := h
        obtain ⟨c, hc, h⟩ := h
        obtain ⟨lbls, hlbls, h⟩ := h
        obtain ⟨cs, hcs, h⟩ := h
        obtain ⟨os, hos, h⟩ := h
        obtain ⟨needed, hneeded, h⟩ := h
        dsimp only at h
        simp only [Prod.mk.injEq] at h
        obtain ⟨rfl, rfl, rfl⟩ := h
        rw [memoGet_ok] at hc
        rw [req_ok] at hlbls hcs hos hneeded
        have hInv₁ := ihSelect _ _ _ _ _ h₁ hInv
        refine MemoInv_setNeededcols hInv₁ ?_
        intro c' o hc' ho
        rw [hc] at hc'
        cases hc'
        rw [hos] at ho
        cases ho
        exact Finset.sdiff_inter_self _ _

/-! ## Decidable per-class checkers for the memo invariants -/

/-- Checks `outs == set(cols)` whenever both relational properties are present. -/
def clsOutsColsOk (c : cls) : Bool :=
  match c.props.cols, c.props.outs with
  | some cols, some o => decide (o = cols.toFinset)
  | _, _ => true

/-- Checks `len(cols) == len(labels)` whenever both are present. -/
def clsLabelsLenOk (c : cls) : Bool :=
  match c.props.cols, c.props.labels with
  | some cols, some ls => cols.length == ls.length
  | _, _ => true

/-- Checks `neededcols` disjoint from `outs` whenever both are present. -/
def clsDisjOk (c : cls) : Bool :=
  match c.props.neededcols, c.props.outs with
  | some n, some o => decide (n ∩ o = ∅)
  | _, _ => true

/-- Every memo-index operand of the class's representations is strictly
below the class's own index. -/
def clsOpsOk (i : Nat) (c : cls) : Bool :=
  c.mexprs.all fun mex => mex.args.all fun a =>
    match a with
    | .idx j => decide (j < i)
    | _ => true

/-- Check an indexed predicate on every class of a memo, threading the
index. -/
def memoChk (p : Nat → cls → Bool) : Nat → Memo → Bool
  | _, [] => true
  | k, c :: rest => p k c && memoChk p (k+1) rest

theorem memoChk_iff (p : Nat → cls → Bool) :
    ∀ (m : Memo) (k : Nat),
      memoChk p k m = true ↔ ∀ i c, m[i]? = some c → p (k + i) c = true := by
  intro m
  induction m with
  | nil => intro k; simp [memoChk]
  | cons c rest ih =>
    intro k
    simp only [memoChk, Bool.and_eq_true, ih]
    constructor
    · rintro ⟨hc, hrest⟩ i d hd
      cases i with
      | zero =>
        rw [List.getElem?_cons_zero] at hd
        cases hd
        rw [Nat.add_zero]
        exact hc
      | succ i =>
        rw [List.getElem?_cons_succ] at hd
        have h2 := hrest i d hd
        have e : k + 1 + i = k + (i + 1) := by omega
        rw [e] at h2
        exact h2
    · intro hall
      constructor
      · have h0 := hall 0 c (by rw [List.getElem?_cons_zero])
        rw [Nat.add_zero] at h0
        exact h0
      · intro i d hd
        have hi := hall (i+1) d (by rw [List.getElem?_cons_succ]; exact hd)
        have e : k + (i + 1) = k + 1 + i := by omega
        rw [e] at hi
        exact hi

theorem goodCls_checkers {i : Nat} {c : cls} (h : goodCls i c) :
    clsOutsColsOk c = true ∧ clsLabelsLenOk c = true ∧ clsDisjOk c = true ∧
      clsOpsOk i c = true := by
  obtain ⟨h1, h2, h3, h4⟩ := h
  refine ⟨?_, ?_, ?_, ?_⟩
  · unfold clsOutsColsOk
    cases hc : c.props.cols <;> cases ho : c.props.outs <;> simp
    exact h2 _ _ hc ho
  · unfold clsLabelsLenOk
    cases hc : c.props.cols <;> cases hl : c.props.labels <;> simp
    exact h3 _ _ hc hl
  · unfold clsDisjOk
    cases hn : c.props.neededcols <;> cases ho : c.props.outs <;> simp
    exact h4 _ _ hn ho
  · unfold clsOpsOk
    simp only [List.all_eq_true]
    intro mex hm a ha
    cases a with
    | idx j => simpa using h1 mex hm j ha
    | str s => rfl
    | int n => rfl

theorem memoInv_checkers {m : Memo} (h : MemoInv m) (p : Nat → cls → Bool)
    (hp : ∀ i c, goodCls i c → p i c = true) : memoChk p 0 m = true := by
  rw [memoChk_iff]
  intro i c hc
  simpa using hp i c (h i c hc)

/-! ## Claims C7, C8, C10: global memo invariants -/

/-- C7: after any analysis run from an empty memo, every class of the
resulting memo satisfies `outs == set(cols)` and `len(cols) == len(labels)`
whenever it carries those relational properties — which every relational
class (unary, scan, cross, filter, relabel copy, project) does by
construction. -/
theorem rel_class_shape_invariant :
    ∀ (fuel : Nat) (env : Scope) (q : SelectQ) (m' : Memo) (r : Nat),
      analyze_select fuel ([] : Memo) env q = .ok (m', r) →
      memoChk (fun _ c => clsOutsColsOk c && clsLabelsLenOk c) 0 m' = true := by
  intro fuel env q m' r h
  have hInv := (invMaster fuel).2.2.1 _ _ _ _ _ h MemoInv_nil
  refine memoInv_checkers hInv _ ?_
  intro i c hg
  obtain ⟨h1, h2, _, _⟩ := goodCls_checkers hg
  simp [h1, h2]

/-- Witness: the shape invariant evaluated on Scenario A's run. -/
theorem rel_class_shape_invariant_witness :
    memoChk (fun _ c => clsOutsColsOk c && clsLabelsLenOk c) 0 memoA.classes = true :=
  rel_class_shape_invariant 10 [([] : Table)] qA memoA.classes 4 (by decide)

/-- C8: after any analysis run from an empty memo, every class of the
resulting memo has `neededcols` disjoint from its own `outs` whenever it
carries both (every relational class does; the in-place subquery-in-FROM
subtraction only shrinks `neededcols`, preserving disjointness). -/
theorem rel_class_needed_disjoint_outs :
    ∀ (fuel : Nat) (env : Scope) (q : SelectQ) (m' : Memo) (r : Nat),
      analyze_select fuel ([] : Memo) env q = .ok (m', r) →
      memoChk (fun _ c => clsDisjOk c) 0 m' = true := by
  intro fuel env q m' r h
  have hInv := (invMaster fuel).2.2.1 _ _ _ _ _ h MemoInv_nil
  refine memoInv_checkers hInv _ ?_
  intro i c hg
  exact (goodCls_checkers hg).2.2.1

/-- Witness: the disjointness invariant evaluated on Scenario C's run. -/
theorem rel_class_needed_disjoint_outs_witness :
    memoChk (fun _ c => clsDisjOk c) 0 memoC.classes = true :=
  rel_class_needed_disjoint_outs 10 [([] : Table)] qC memoC.classes 3 (by decide)

/-- C10: after any analysis run from an empty memo, every memo-index operand
of every class's structural representation (including the relabel copies,
which share an earlier class's representation) is strictly smaller than the
index of the class containing it, so all references point to earlier
classes and the memo is acyclic. -/
theorem memo_operands_lt_index :
    ∀ (fuel : Nat) (env : Scope) (q : SelectQ) (m' : Memo) (r : Nat),
      analyze_select fuel ([] : Memo) env q = .ok (m', r) →
      memoChk clsOpsOk 0 m' = true := by
  intro fuel env q m' r h
  have hInv := (invMaster fuel).2.2.1 _ _ _ _ _ h MemoInv_nil
  refine memoInv_checkers hInv _ ?_
  intro i c hg
  exact (goodCls_checkers hg).2.2.2

/-- Witness: the DAG invariant evaluated on Scenario A's run. -/
theorem memo_operands_lt_index_witness :
    memoChk clsOpsOk 0 memoA.classes = true :=
  memo_operands_lt_index 10 [([] : Table)] qA memoA.classes 4 (by decide)

/-! ## Claim C2: the correlation laws -/

/-- C2: (filter law) every successful analysis of a SELECT with a WHERE
clause leaves in its result memo a filter class over source `s` and
predicate `f` whose `cols`/`outs`/`labels` are the source's property values
unchanged and whose `neededcols` is `neededcols(f) \ cols(s)`; and
(projection law) whenever the projection stage falls into the general case,
the appended project class has `neededcols = neededcols(s) \ outs'` where
`outs'` is the project class's own output set. -/
theorem filter_project_correlation :
    (∀ (fuel : Nat) (m : Memo) (env : Scope) (fc : Option FromClause) (w : Scalar)
       (ec : Option ExprsClause) (m' : Memo) (r : Nat),
       analyze_select fuel m env (.mk fc (some w) ec) = .ok (m', r) →
       ∃ (i s f : Nat) (c sc fcl : cls) (scols : List Nat) (fn : Finset Nat),
         m'[i]? = some c ∧
         c.mexprs = [⟨"filter", [.idx s, .idx f]⟩] ∧
         m'[s]? = some sc ∧ m'[f]? = some fcl ∧
         c.props.cols = sc.props.cols ∧
         c.props.outs = sc.props.outs ∧
         c.props.labels = sc.props.labels ∧
         sc.props.cols = some scols ∧
         fcl.props.neededcols = some fn ∧
         c.props.neededcols = some (fn \ scols.toFinset)) ∧
    (∀ (fuel : Nat) (m : Memo) (here : Scope) (srcidx : Nat) (ecl : ExprsClause)
       (labels : List String) (eexprs : List Scalar) (m₂ : Memo) (idxs : List Nat)
       (src : cls) (sneed : Finset Nat),
       normalizeProj (projItems ecl) = (labels, eexprs) →
       analyze_scalar_list fuel m here eexprs = .ok (m₂, idxs) →
       m₂[srcidx]? = some src →
       ¬(some idxs = src.props.cols ∧ some labels = src.props.labels) →
       ¬(some idxs.toFinset = src.props.outs) →
       src.props.neededcols = some sneed →
       analyze_proj (fuel+1) m here srcidx (some ecl) =
         .ok (m₂ ++ [⟨[⟨"project", [.idx srcidx]⟩],
            { neededcols := some (sneed \ idxs.toFinset), cols := some idxs,
              outs := some idxs.toFinset, labels := some labels }⟩],
          m₂.length)) := by
  constructor
  · intro fuel m env fc w ec m' r h
    cases fuel with
    | zero => exact absurd h (by simp [analyze_select])
    | succ fuel =>
      have main : ∀ (m₁ : Memo) (here₁ : Scope) (s₁ : Nat),
          (∃ a, analyze_where fuel m₁ here₁ s₁ (some w) = .ok a ∧
            ∃ b, analyze_proj fuel a.1 here₁ a.2 ec = .ok b ∧
              (pure (b.1, b.2) : Except Err (Memo × Nat)) = .ok (m', r)) →
          ∃ (i s f : Nat) (c sc fcl : cls) (scols : List Nat) (fn : Finset Nat),
            m'[i]? = some c ∧
            c.mexprs = [⟨"filter", [.idx s, .idx f]⟩] ∧
            m'[s]? = some sc ∧ m'[f]? = some fcl ∧
            c.props.cols = sc.props.cols ∧
            c.props.outs = sc.props.outs ∧
            c.props.labels = sc.props.labels ∧
            sc.props.cols = some scols ∧
            fcl.props.neededcols = some fn ∧
            c.props.neededcols = some (fn \ scols.toFinset) := by
        intro m₁ here₁ s₁ hh
        obtain ⟨⟨m₂, s₂⟩, h₂, hh⟩ := hh
        obtain ⟨⟨m₃, s₃⟩, h₃, hpure⟩ := hh
        dsimp only at h₃ hpure
        rw [pure_ok, Prod.mk.injEq] at hpure
        obtain ⟨rfl, rfl⟩ := hpure
        cases fuel with
        | zero => exact absurd h₂ (by simp [analyze_where])
        | succ fuel =>
        simp only [analyze_where, bind_ok, pure_ok] at h₂
        obtain ⟨⟨mw, fidx⟩, hsc, h₂⟩ := h₂
        obtain ⟨src, hsrc, h₂⟩ := h₂
        obtain ⟨fcl, hfc, h₂⟩ := h₂
        obtain ⟨fn, hfn, h₂⟩ := h₂
        obtain ⟨scols, hscols, h₂⟩ := h₂
        dsimp only at hsrc hfc hfn hscols h₂
        simp only [add_rel_exp, newcls, Prod.mk.injEq] at h₂
        obtain ⟨rfl, rfl⟩ := h₂
        rw [memoGet_ok] at hsrc hfc
        rw [req_ok] at hfn hscols
        have hs₁ : s₁ < mw.length := getElem?_some_lt hsrc
        have hf₁ : fidx < mw.length := getElem?_some_lt hfc
        have hpres := (presMaster (fuel+1)).2.2.2.2.1 _ _ _ _ _ _ h₃
        refine ⟨mw.length, s₁, fidx,
          ⟨[⟨"filter", [.idx s₁, .idx fidx]⟩],
            { cols := src.props.cols, outs := src.props.outs,
              labels := src.props.labels,
              neededcols := some (fn \ scols.toFinset) }⟩,
          src, fcl, scols, fn, ?_, rfl, ?_, ?_, rfl, rfl, rfl, hscols, hfn, rfl⟩
        · rw [hpres.1.2 mw.length (by simp)]
          exact List.getElem?_concat_length _ _
        · rw [hpres.1.2 s₁ (by simp; omega)]
          rw [List.getElem?_append_left hs₁]
          exact hsrc
        · rw [hpres.1.2 fidx (by simp; omega)]
          rw [List.getElem?_append_left hf₁]
          exact hfc
      cases fc with
      | none =>
        simp only [analyze_select, pure_bind_ex, bind_ok] at h
        exact main _ _ _ h
      | some f =>
        simp only [analyze_select, bind_ok] at h
        obtain ⟨⟨m₁, here₁, s₁⟩, h₁, h⟩ := h
        exact main _ _ _ h
  · intro fuel m here srcidx ecl labels eexprs m₂ idxs src sneed
      hnorm hlist hsrc hne houts hsneed
    simp only [analyze_proj, hnorm, hlist, ok_bind, memoGet, hsrc]
    rw [if_neg hne, if_neg houts]
    simp only [hsneed, req, ok_bind]
    rfl

/-- The query SELECT k FROM kv WHERE k = v, used to exercise the filter law. -/
def qW : SelectQ :=
  .mk (some (.one (.table "kv"))) (some (.app "=" [.sym "k", .sym "v"]))
    (some (.one (.bare (.sym "k"))))

/-- The memo produced by analyzing `qW`. -/
def memoW : Memo :=
  [ ⟨[⟨"var", [.str "kv.k"]⟩], { neededcols := some {0} }⟩,
    ⟨[⟨"var", [.str "kv.v"]⟩], { neededcols := some {1} }⟩,
    scanKv,
    ⟨[⟨"=", [.idx 0, .idx 1]⟩], { neededcols := some {0, 1} }⟩,
    ⟨[⟨"filter", [.idx 2, .idx 3]⟩],
      { neededcols := some (({0, 1} : Finset Nat) \ ([0, 1] : List Nat).toFinset),
        cols := some [0, 1], outs := some {0, 1}, labels := some ["k", "v"] }⟩,
    ⟨[⟨"project", [.idx 4]⟩],
      { neededcols := some ∅, cols := some [0], outs := some {0},
        labels := some ["k"] }⟩ ]

/-- The memo at the projection stage of Scenario A: variables, scan and the
`+` scalar class. -/
def memoAplus : Memo :=
  memoB.classes ++ [⟨[⟨"+", [.idx 0, .idx 1]⟩], { neededcols := some {0, 1} }⟩]

/-- Witness for `filter_project_correlation`: the filter law applied to the
run of `qW`, and the projection law applied at Scenario A's projection
stage. -/
theorem filter_project_correlation_witness :
    (∃ (i s f : Nat) (c sc fcl : cls) (scols : List Nat) (fn : Finset Nat),
       memoW[i]? = some c ∧
       c.mexprs = [⟨"filter", [.idx s, .idx f]⟩] ∧
       memoW[s]? = some sc ∧ memoW[f]? = some fcl ∧
       c.props.cols = sc.props.cols ∧
       c.props.outs = sc.props.outs ∧
       c.props.labels = sc.props.labels ∧
       sc.props.cols = some scols ∧
       fcl.props.neededcols = some fn ∧
       c.props.neededcols = some (fn \ scols.toFinset)) ∧
    analyze_proj 9 memoB.classes [[("kv", [("k", 0), ("v", 1)])], [], []] 2
      (some (.one (.bare (.app "+" [.sym "k", .sym "v"])))) =
      .ok (memoAplus ++ [⟨[⟨"project", [.idx 2]⟩],
        { neededcols := some ((∅ : Finset Nat) \ ([3] : List Nat).toFinset),
          cols := some [3], outs := some ([3] : List Nat).toFinset,
          labels := some ["(+ k v)"] }⟩], 4) :=
  ⟨filter_project_correlation.1 10 ([] : Memo) [([] : Table)]
      (some (.one (.table "kv"))) (.app "=" [.sym "k", .sym "v"])
      (some (.one (.bare (.sym "k")))) memoW 5 (by decide),
   filter_project_correlation.2 8 memoB.classes
      [[("kv", [("k", 0), ("v", 1)])], [], []] 2
      (.one (.bare (.app "+" [.sym "k", .sym "v"])))
      ["(+ k v)"] [.app "+" [.sym "k", .sym "v"]] memoAplus [3] scanKv ∅
      (by rfl) (by rfl) (by rfl) (by decide) (by decide) (by rfl)⟩

/-! ## Claim C9: unknown tables abort the analysis -/

theorem error_bind {α β : Type} {e : Err} {f : α → Except Err β} :
    (Except.error e : Except Err α) >>= f = .error e := rfl

/-- C9: resolving a FROM table name that is absent from the catalog fails
with `unknownTable` naming that table, both at the data-source level and
for a whole SELECT whose FROM clause is that table; the `Except` result
carries no memo and no root, so no class for the table is added and there
is no partial result.  The closing conjunct is Scenario D for the concrete
name "xy". -/
theorem unknown_table_aborts :
    (∀ (fuel : Nat) (m : Memo) (env : Scope) (tn : String),
       tablesGet tn = none →
       get_datasource (fuel+1) m env (.table tn) = .error (.unknownTable tn)) ∧
    (∀ (fuel : Nat) (m : Memo) (env : Scope) (tn : String) (w : Option Scalar)
       (ec : Option ExprsClause),
       tablesGet tn = none →
       analyze_select (fuel+3) m env (.mk (some (.one (.table tn))) w ec) =
         .error (.unknownTable tn)) ∧
    compileQuery 10 (.mk (some (.one (.table "xy"))) none none) =
      .error (.unknownTable "xy") := by
  refine ⟨?_, ?_, by decide⟩
  · intro fuel m env tn htn
    simp [get_datasource, htn]
  · intro fuel m env tn w ec htn
    simp [analyze_select, analyze_from, get_datasource, htn, error_bind]

/-- Witness for `unknown_table_aborts` at the concrete missing name "zz". -/
theorem unknown_table_aborts_witness :
    get_datasource 5 ([] : Memo) [([] : Table)] (.table "zz") =
      .error (.unknownTable "zz") ∧
    analyze_select 9 ([] : Memo) [([] : Table)]
      (.mk (some (.one (.table "zz"))) none none) = .error (.unknownTable "zz") :=
  ⟨unknown_table_aborts.1 4 ([] : Memo) [([] : Table)] "zz" (by decide),
   unknown_table_aborts.2.1 6 ([] : Memo) [([] : Table)] "zz" none none (by decide)⟩

/-! ## Claim C5: qualified lookup and alias shadowing (corrected)

The spec claims a qualified lookup that misses the exact alias+column pair
in the current table always delegates to the parent chain.  The source's
`scope._lookup` delegates only when the *alias* is absent from the current
table: when the alias is present but lacks the column, it returns `None`
immediately, shadowing any parent binding of the same pair. -/

/-- Counterexample to C5 as stated: the current table binds `kv.k` only, the
parent binds `kv.v` to 42 (looking up the parent chain alone finds it), yet
the chained lookup of `kv.v` returns not-found instead of delegating. -/
theorem qualified_lookup_shadow_cex :
    lookup [[("kv", [("k", 1)])], [("kv", [("v", 42)])]] "kv.v" = none ∧
    colsGet [("k", 1)] "v" = none ∧
    lookup [[("kv", [("v", 42)])]] "kv.v" = some 42 := by decide

/-- C5 as amended: for a nonempty alias, the current table delegates to the
parent exactly when the alias itself is unbound there; when the alias is
bound, the result is that alias's entry for the column — possibly not-found
— and the parent is never consulted.  Qualified lookups are never treated
as anonymous (the bare-name scan runs only for the empty alias). -/
theorem qualified_lookup_alias_shadowing :
    ∀ (t : Table) (parent : Scope) (tn colname : String), tn ≠ "" →
      (tableFind t tn = none →
        scopeLookup (t :: parent) tn colname = scopeLookup parent tn colname) ∧
      (∀ d, tableFind t tn = some d →
        scopeLookup (t :: parent) tn colname = colsGet d colname) := by
  intro t parent tn colname htn
  constructor
  · intro hnone
    simp [scopeLookup, hnone, htn]
  · intro d hd
    simp [scopeLookup, hd]

/-- Witness for `qualified_lookup_alias_shadowing`: both branches at the
counterexample's tables. -/
theorem qualified_lookup_alias_shadowing_witness :
    scopeLookup [[("kv", [("k", 1)])], [("kv", [("v", 42)])]] "kv" "v" =
      colsGet [("k", 1)] "v" ∧
    scopeLookup [[("ab", [("a", 7)])], [("kv", [("v", 42)])]] "kv" "v" =
      scopeLookup [[("kv", [("v", 42)])]] "kv" "v" :=
  ⟨(qualified_lookup_alias_shadowing [("kv", [("k", 1)])] [[("kv", [("v", 42)])]]
      "kv" "v" (by decide)).2 [("k", 1)] (by decide),
   (qualified_lookup_alias_shadowing [("ab", [("a", 7)])] [[("kv", [("v", 42)])]]
      "kv" "v" (by decide)).1 (by decide)⟩

/-! ## Claim C6: bare lookup and the anonymous alias (corrected)

The spec claims a bare lookup scans all aliases of the current table and
returns one of the matching bindings whenever any alias binds the name.
The source's `scope._lookup` first checks whether the anonymous alias `''`
is itself a key of the current table (which happens whenever a
subquery-in-FROM re-exported its columns there); if so, only that alias's
dictionary is consulted and neither the other aliases nor the parent are
scanned. -/

/-- Counterexample to C6 as stated: the current table binds bare `y` under
alias `kv` and also has an anonymous alias binding only `x`; the bare
lookup of `y` returns not-found instead of the `kv` binding. -/
theorem bare_lookup_anon_cex :
    lookup [[("kv", [("y", 2)]), ("", [("x", 1)])]] "y" = none ∧
    tableFind [("kv", [("y", 2)]), ("", [("x", 1)])] "kv" = some [("y", 2)] ∧
    colsGet [("y", 2)] "y" = some 2 := by decide

/-- C6 as amended: when the anonymous alias is a key of the current table,
a bare lookup returns its entry for the name — possibly not-found — and
scans nothing else; only when the anonymous alias is absent does the
lookup scan all aliases in insertion order (first match wins) and
delegate to the parent when none matches. -/
theorem bare_lookup_anon_first :
    ∀ (t : Table) (parent : Scope) (colname : String),
      (∀ d, tableFind t "" = some d →
        scopeLookup (t :: parent) "" colname = colsGet d colname) ∧
      (tableFind t "" = none →
        scopeLookup (t :: parent) "" colname =
          (match scanAliases t colname with
           | some i => some i
           | none => scopeLookup parent "" colname)) := by
  intro t parent colname
  constructor
  · intro d hd
    simp [scopeLookup, hd]
  · intro hnone
    simp [scopeLookup, hnone]

/-- Witness for `bare_lookup_anon_first`: both branches at the
counterexample's table. -/
theorem bare_lookup_anon_first_witness :
    scopeLookup [[("kv", [("y", 2)]), ("", [("x", 1)])]] "" "y" =
      colsGet [("x", 1)] "y" ∧
    scopeLookup [[("kv", [("y", 2)])]] "" "y" =
      (match scanAliases [("kv", [("y", 2)])] "y" with
       | some i => some i
       | none => scopeLookup [] "" "y") :=
  ⟨(bare_lookup_anon_first [("kv", [("y", 2)]), ("", [("x", 1)])] [] "y").1
      [("x", 1)] (by decide),
   (bare_lookup_anon_first [("kv", [("y", 2)])] [] "y").2 (by decide)⟩
